import Mathlib

/-!
# Verification of the rayforge-registry core scripts

Shallow embedding of `scripts/validate_package.py` and
`scripts/update_registry.py`, together with theorems settling the
specification claims about them.

Conventions:
* Python strings are Lean `String`s (both compare lexicographically by
  code point on the ASCII data involved here).
* Python dicts whose keys matter are association lists with unique keys.
* Functions that can raise return `Except`.
-/

/-! ## Semantic versions (the `semver` library, as used by the scripts)

`semver.VersionInfo.parse` matches the anchored regex
`^(0|[1-9]\d*)\.(0|[1-9]\d*)\.(0|[1-9]\d*)`
`(-(pre)(\.pre)*)?(\+(build)(\.build)*)?$`
where a prerelease identifier is `0|[1-9]\d*|\d*[a-zA-Z-][0-9a-zA-Z-]*`
and a build identifier is `[0-9a-zA-Z-]+`.  Because the pattern is
anchored with `$` (not `\Z`) and used via `re.match`, a single trailing
newline is tolerated.  Precedence ignores build metadata; prerelease
identifiers compare numerically when purely numeric, numeric sorts
below alphanumeric, and a shorter identifier list sorts below a longer
one of which it is a prefix. -/

/-- A prerelease identifier: numeric (compared as a number) or
alphanumeric (compared as a code-point string). -/
inductive PreId where
  | num (n : Nat)
  | str (s : String)
deriving DecidableEq, Repr

/-- A parsed semantic version.  Build metadata is validated during
parsing but discarded: it never influences ordering and is not stored
by either script. -/
structure SemVer where
  major : Nat
  minor : Nat
  patch : Nat
  pre : List PreId
deriving DecidableEq, Repr

/-- Split a character list at the first occurrence of `c`:
`some (before, after)` when `c` occurs, `none` otherwise. -/
def splitAtFirst (c : Char) : List Char → Option (List Char × List Char)
  | [] => none
  | x :: xs =>
    if x = c then some ([], xs)
    else (splitAtFirst c xs).map (fun p => (x :: p.1, p.2))

/-- Split a character list on every occurrence of `c`
(like Python `str.split`): always returns at least one piece. -/
def splitOnChar (c : Char) : List Char → List (List Char)
  | [] => [[]]
  | x :: xs =>
    match splitOnChar c xs with
    | [] => [[]]
    | h :: t => if x = c then [] :: h :: t else (x :: h) :: t

/-- Decimal value of a digit list. -/
def toNatDigits (cs : List Char) : Nat :=
  cs.foldl (fun n c => 10 * n + (c.toNat - '0'.toNat)) 0

/-- `0|[1-9]\d*`: a nonempty digit string with no leading zero. -/
def numValid : List Char → Bool
  | [] => false
  | ['0'] => true
  | '0' :: _ :: _ => false
  | cs => cs.all (·.isDigit)

/-- `[0-9a-zA-Z-]`: the characters allowed in identifiers. -/
def isIdentChar (c : Char) : Bool :=
  c.isAlpha || c.isDigit || c = '-'

/-- A valid prerelease identifier: `0|[1-9]\d*|\d*[a-zA-Z-][0-9a-zA-Z-]*`. -/
def preIdValid (cs : List Char) : Bool :=
  if cs.all (·.isDigit) then numValid cs
  else cs.all isIdentChar

/-- A valid build identifier: `[0-9a-zA-Z-]+`. -/
def buildIdValid (cs : List Char) : Bool :=
  !cs.isEmpty && cs.all isIdentChar

/-- Interpretation of a prerelease identifier for comparison purposes:
purely numeric identifiers become numbers (python-semver `_nat_cmp`). -/
def toPreId (cs : List Char) : PreId :=
  if cs.all (·.isDigit) then .num (toNatDigits cs) else .str (String.mk cs)

/-- Drop a single trailing newline, mirroring that the library's regex
is anchored with `$` under `re.match`. -/
def dropTrailingNl (cs : List Char) : List Char :=
  if cs.getLast? = some '\n' then cs.dropLast else cs

/-- Core of `semver.VersionInfo.parse` on an exploded string (after the
trailing-newline allowance has been applied). -/
def semverParseCore (cs : List Char) : Option SemVer :=
  let core_build : List Char × Option (List Char) :=
    match splitAtFirst '+' cs with
    | none => (cs, none)
    | some (a, b) => (a, some b)
  let ver_pre : List Char × Option (List Char) :=
    match splitAtFirst '-' core_build.1 with
    | none => (core_build.1, none)
    | some (a, b) => (a, some b)
  match splitOnChar '.' ver_pre.1 with
  | [ma, mi, pa] =>
    if numValid ma && numValid mi && numValid pa then
      let preOk : Bool :=
        match ver_pre.2 with
        | none => true
        | some p => (splitOnChar '.' p).all preIdValid
      let buildOk : Bool :=
        match core_build.2 with
        | none => true
        | some b => (splitOnChar '.' b).all buildIdValid
      if preOk && buildOk then
        some { major := toNatDigits ma, minor := toNatDigits mi,
               patch := toNatDigits pa,
               pre := match ver_pre.2 with
                 | none => []
                 | some p => (splitOnChar '.' p).map toPreId }
      else none
    else none
  | _ => none

/-- `semver.VersionInfo.parse`. -/
def semverParse (s : String) : Option SemVer :=
  semverParseCore (dropTrailingNl s.data)

/-- Python `s.lstrip("v")`: remove every leading `'v'` (case-sensitive). -/
def stripV (s : String) : String :=
  String.mk (s.data.dropWhile (· = 'v'))

/-- The version key both scripts compute for a tag:
`semver.VersionInfo.parse(tag.lstrip("v"))`. -/
def pv (s : String) : Option SemVer :=
  semverParse (stripV s)

/-! ### Semantic-version precedence

Precedence is made a total preorder by embedding into a lexicographic
key: `(major, minor, patch, has-no-prerelease, prerelease identifiers)`
with numeric identifiers below string identifiers and the list compared
in dictionary order (a strict prefix sorts first). -/

/-- Key of one prerelease identifier: numerics sort below strings. -/
def preKey : PreId → Nat ⊕ₗ String
  | .num n => toLex (Sum.inl n)
  | .str s => toLex (Sum.inr s)

/-- The lexicographic precedence key of a version. -/
abbrev VKey := Nat ×ₗ (Nat ×ₗ (Nat ×ₗ (Bool ×ₗ List (Nat ⊕ₗ String))))

/-- Embed a version into its precedence key. -/
def toKey (v : SemVer) : VKey :=
  toLex (v.major, toLex (v.minor, toLex (v.patch,
    toLex (v.pre.isEmpty, v.pre.map preKey))))

/-- Strict semantic-version precedence. -/
def semverLt (a b : SemVer) : Prop := toKey a < toKey b

instance : DecidableRel semverLt := fun a b =>
  inferInstanceAs (Decidable (toKey a < toKey b))

/-- Sort key of a raw tag string.  Only evaluated on tags that parse;
the default is irrelevant. -/
def vkey (s : String) : VKey :=
  toKey ((pv s).getD ⟨0, 0, 0, []⟩)

/-- The relation the descending stable sort of the version list uses:
`rVer a b` means tag `a` precedes-or-ties tag `b` in descending order. -/
def rVer (a b : String) : Prop := vkey b ≤ vkey a

instance : DecidableRel rVer := fun a b =>
  inferInstanceAs (Decidable (vkey b ≤ vkey a))

instance : IsTotal String rVer :=
  ⟨fun a b => (le_total (vkey b) (vkey a)).imp id id⟩

instance : IsTrans String rVer :=
  ⟨fun _ _ _ hab hbc => le_trans hbc hab⟩

/-! ## The metadata validator (`scripts/validate_package.py`)

Only the content phase carries the claimed behaviour; it is embedded
here function by function.  Errors are the distinct `ValueError` /
`TypeError` messages the script raises. -/

/-- The distinct failures `validate_content` can raise. -/
inductive VErr where
  | emptyField (key : String)
  | invalidTag
  | placeholder
  | invalidEmail
  | emptyProvides
  | assetsNotList
  | codeNotStr
deriving DecidableEq, Repr

/-- The whitespace characters Python `str.strip()` removes (ASCII). -/
def isPySpace (c : Char) : Bool :=
  c = ' ' || c = '\t' || c = '\n' || c = '\r' ||
    c = (Char.ofNat 11) || c = (Char.ofNat 12)

/-- `_check_non_empty_str`: fails when the string is empty or consists
only of whitespace (`not value or not value.strip()`). -/
def checkNonEmptyStr (value key : String) : Except VErr Unit :=
  if value.data.all isPySpace then .error (.emptyField key) else .ok ()

/-- `_check_tag`: `None` or the empty string pass trivially; otherwise
`tag.lstrip("v")` must parse as a semantic version. -/
def checkTag (tag : Option String) : Except VErr Unit :=
  match tag with
  | none => .ok ()
  | some s =>
    if s.data.isEmpty then .ok ()
    else match pv s with
      | some _ => .ok ()
      | none => .error .invalidTag

/-- Whether `pat` occurs as a contiguous substring of `s`
(Python `pat in s`). -/
def containsSub (pat s : String) : Bool :=
  s.data.tails.any (fun t => pat.data.isPrefixOf t)

/-- `[a-zA-Z0-9_.+-]`: local-part characters of the email regex. -/
def isLocalChar (c : Char) : Bool :=
  c.isAlpha || c.isDigit || c = '_' || c = '.' || c = '+' || c = '-'

/-- `[a-zA-Z0-9-]`: characters before the mandatory domain dot. -/
def isDomHeadChar (c : Char) : Bool :=
  c.isAlpha || c.isDigit || c = '-'

/-- `[a-zA-Z0-9-.]`: characters after the mandatory domain dot. -/
def isDomTailChar (c : Char) : Bool :=
  c.isAlpha || c.isDigit || c = '-' || c = '.'

/-- Matcher for the domain part `[a-zA-Z0-9-]+\.[a-zA-Z0-9-.]+`: the
head ends at the domain's first dot, which is faithful because the
head class does not readmit the dot. -/
def emailDom (dom : List Char) : Bool :=
  match splitAtFirst '.' dom with
  | none => false
  | some (d1, d2) =>
    (!d1.isEmpty && d1.all isDomHeadChar) &&
    (!d2.isEmpty && d2.all isDomTailChar)

/-- Matcher for the regex core
`[a-zA-Z0-9_.+-]+@[a-zA-Z0-9-]+\.[a-zA-Z0-9-.]+` against a whole
character list: the local part ends at the first `@`, which is
faithful because no character class readmits `@`. -/
def emailCore (cs : List Char) : Bool :=
  match splitAtFirst '@' cs with
  | none => false
  | some (l, dom) => (!l.isEmpty && l.all isLocalChar) && emailDom dom

/-- `re.match(email_regex, email)`: the pattern is anchored `^...$`, and
`$` also matches just before a single trailing newline. -/
def emailMatch (s : String) : Bool :=
  emailCore (dropTrailingNl s.data)

/-- `_check_author_content`. -/
def checkAuthorContent (name email : String) : Except VErr Unit := do
  checkNonEmptyStr name "author.name"
  checkNonEmptyStr email "author.email"
  if containsSub "your-github-username" name then
    .error .placeholder
  else if emailMatch email then .ok ()
  else .error .invalidEmail

/-- An asset record, e.g. `{path: "../secrets.yaml"}`: a flat mapping
of string keys to string values. -/
structure AssetRec where
  fields : List (String × String)
deriving DecidableEq, Repr

/-- YAML values as far as `_check_provides` can distinguish them: it
only ever asks "is this a string?" / "is this a list?", and never looks
inside a list's elements, so asset records are carried verbatim. -/
inductive PVal where
  | str (s : String)
  | int (n : Int)
  | list (l : List AssetRec)
  | null
deriving DecidableEq, Repr

/-- Key membership in an embedded Python dict. -/
def hasKey (d : List (String × PVal)) (k : String) : Bool :=
  d.any (fun p => p.1 = k)

/-- Value lookup in an embedded Python dict (first occurrence). -/
def getKey (d : List (String × PVal)) (k : String) : Option PVal :=
  (d.find? (fun p => p.1 = k)).map Prod.snd

/-- `isinstance(value, list)` on an optional dict value. -/
def isListV : Option PVal → Bool
  | some (.list _) => true
  | _ => false

/-- `isinstance(value, str)` on an optional dict value. -/
def isStrV : Option PVal → Bool
  | some (.str _) => true
  | _ => false

/-- `_check_provides`: requires a non-empty dict carrying `code` and/or
`assets`, `assets` (when present) to be a list and `code` (when
present) to be a string.  The elements of `assets` — in particular any
`path` inside them — are never inspected. -/
def checkProvides (provides : List (String × PVal)) : Except VErr Unit :=
  if provides.isEmpty
      || !(hasKey provides "code" || hasKey provides "assets") then
    .error .emptyProvides
  else if hasKey provides "assets"
      && !(isListV (getKey provides "assets")) then
    .error .assetsNotList
  else if hasKey provides "code"
      && !(isStrV (getKey provides "code")) then
    .error .codeNotStr
  else .ok ()

/-- A metadata document as `validate_content` consumes it after the
schema phase: `name`/`description` are strings, `author` has been
projected to its `name`/`email` strings (absent keys read as `""` via
`dict.get`), `provides` is a dict. -/
structure CDoc where
  name : String
  description : String
  authorName : String
  authorEmail : String
  provides : List (String × PVal)
deriving DecidableEq, Repr

/-- `validate_content`. -/
def validateContent (d : CDoc) (tag : Option String) : Except VErr Unit := do
  checkTag tag
  checkNonEmptyStr d.name "name"
  checkNonEmptyStr d.description "description"
  checkAuthorContent d.authorName d.authorEmail
  checkProvides d.provides

/-- Modelled from the spec: the expected-name check is absent from the
script under `src/` (its `main` accepts only a metadata path and
`--tag`); §4.2/§6 of the spec describe an optional expected-name
argument that "must equal the metadata's `name` exactly
(case-sensitive); otherwise fails with `NameMismatch`". -/
def checkExpectedName (expected : Option String) (name : String) :
    Except String Unit :=
  match expected with
  | none => .ok ()
  | some e => if e = name then .ok () else .error "NameMismatch"

/-! ## The registry merger (`scripts/update_registry.py`)

`update_package_entry` is embedded as a pure function from the
`packages` map to the new `packages` map.  An `Entry` mirrors a package
entry's dict: a field is `none` when the key is absent.  Entries the
function writes always carry all six keys (the script rebuilds them as
`sorted_package_entry`); pre-existing entries may lack keys, and the
script then raises `KeyError` — modelled as `Except.error`. -/

/-- The `author` value is copied verbatim between dicts; modelled as a
flat string-to-string mapping (`{}` is `[]`). -/
abbrev AuthorVal := List (String × String)

/-- One package entry of `registry.yaml`. -/
structure Entry where
  name : Option String
  description : Option String
  author : Option AuthorVal
  repository : Option String
  latest_stable : Option String
  versions : Option (List String)
deriving DecidableEq, Repr

/-- The package metadata fields `update_package_entry` reads:
`metadata["name"]` (raising when absent), `metadata.get("description",
"")` and `metadata.get("author", {})`. -/
structure Meta where
  name : Option String
  description : Option String
  author : Option AuthorVal
deriving DecidableEq, Repr

/-- The `packages` mapping: an insertion-ordered dict. -/
abbrev Reg := List (String × Entry)

/-- The `KeyError`s `update_package_entry` can raise. -/
inductive UErr where
  | keyName
  | keyVersions
  | keyRepository
deriving DecidableEq, Repr

/-- Python dict lookup (keys are unique in a real dict). -/
def rlookup : Reg → String → Option Entry
  | [], _ => none
  | (k, v) :: t, pid => if k = pid then some v else rlookup t pid

/-- Python dict assignment `d[k] = v`: replace in place, else append. -/
def setKey : Reg → String → Entry → Reg
  | [], k, v => [(k, v)]
  | (k', v') :: t, k, v =>
    if k' = k then (k, v) :: t else (k', v') :: setKey t k v

/-- The keys of the mapping, in order. -/
def rkeys (l : Reg) : List String := l.map Prod.fst

/-- Ascending-key order on entries, as `dict(sorted(packages.items()))`
compares them (keys are unique, so the key decides). -/
def kLe (a b : String × Entry) : Prop := a.1 ≤ b.1

instance : DecidableRel kLe := fun a b =>
  inferInstanceAs (Decidable (a.1 ≤ b.1))

instance : IsTotal (String × Entry) kLe := ⟨fun a b => le_total a.1 b.1⟩

instance : IsTrans (String × Entry) kLe :=
  ⟨fun _ _ _ hab hbc => le_trans hab hbc⟩

/-- `dict(sorted(packages.items()))`. -/
def sortByKey (l : Reg) : Reg := l.insertionSort kLe

/-- `Path(repo).name`: the final non-empty path segment. -/
def pathName (repo : String) : String :=
  String.mk (((splitOnChar '/' repo.data).filter
    (fun s => !s.isEmpty)).getLast?.getD [])

/-- The entry synthesized for a first publish:
`{"repository": "https://github.com/" + repo, "versions": []}`. -/
def freshEntry (repo : String) : Entry :=
  { name := none, description := none, author := none,
    repository := some ("https://github.com/" ++ repo),
    latest_stable := none, versions := some [] }

/-- Step 4: append the tag unless already present. -/
def newVersions (vs : List String) (tag : String) : List String :=
  if tag ∈ vs then vs else vs ++ [tag]

/-- Whether every listed tag parses under the sort key
(`semver.VersionInfo.parse(v.lstrip("v"))`). -/
def allParse (vs : List String) : Bool :=
  vs.all (fun v => (pv v).isSome)

/-- The descending stable sort `versions.sort(key=..., reverse=True)`.
CPython materializes all keys before reordering, so when a key raises
`ValueError` the list is left unchanged — hence this is only applied
when every tag parses. -/
def sortDesc (vs : List String) : List String :=
  vs.insertionSort rVer

/-- The per-entry body of `update_package_entry`: static-field refresh
(`metadata["name"]` raising when absent), version append, the guarded
sort, and the rebuild as `sorted_package_entry` (raising when the
pre-existing entry lacks `versions` or `repository`). -/
def updateEntry (e0 : Entry) (m : Meta) (tag : String) : Except UErr Entry :=
  match m.name with
  | none => .error .keyName
  | some n =>
    match e0.versions with
    | none => .error .keyVersions
    | some vs0 =>
      match e0.repository with
      | none => .error .keyRepository
      | some url =>
        let vs1 := newVersions vs0 tag
        let sorted : Bool := allParse vs1
        .ok { name := some n,
              description := some (m.description.getD ""),
              author := some (m.author.getD []),
              repository := some url,
              latest_stable := some (if sorted then (sortDesc vs1).headD ""
                else e0.latest_stable.getD ""),
              versions := some (if sorted then sortDesc vs1 else vs1) }

/-- `update_package_entry`, restricted to its effect on `packages`
(the function's only observable effect besides the warning print):
fetch-or-synthesize the entry, transform it, write it back, re-sort
the map by key. -/
def upsert (R : Reg) (m : Meta) (repo tag : String) : Except UErr Reg :=
  let pid := pathName repo
  match updateEntry ((rlookup R pid).getD (freshEntry repo)) m tag with
  | .error e => .error e
  | .ok efin => .ok (sortByKey (setKey R pid efin))

/-! ## Registry-map lemmas -/

theorem rlookup_setKey_self (l : Reg) (k : String) (v : Entry) :
    rlookup (setKey l k v) k = some v := by
  induction l with
  | nil => simp [setKey, rlookup]
  | cons p t ih =>
    obtain ⟨k', v'⟩ := p
    by_cases h : k' = k
    · simp [setKey, h, rlookup]
    · simp [setKey, h, rlookup, ih]

theorem setKey_of_rlookup {l : Reg} {k : String} {v : Entry}
    (h : rlookup l k = some v) : setKey l k v = l := by
  induction l with
  | nil => simp [rlookup] at h
  | cons p t ih =>
    obtain ⟨k', v'⟩ := p
    by_cases hk : k' = k
    · subst hk
      simp only [rlookup, if_true, eq_self_iff_true, Option.some.injEq] at h
      simp [setKey, h]
    · simp only [rlookup, if_neg hk] at h
      simp [setKey, hk, ih h]

theorem mem_rkeys_setKey {a : String} {l : Reg} {k : String} {v : Entry} :
    a ∈ rkeys (setKey l k v) ↔ a ∈ rkeys l ∨ a = k := by
  induction l with
  | nil => simp [setKey, rkeys]
  | cons p t ih =>
    obtain ⟨k', v'⟩ := p
    by_cases h : k' = k
    · subst h
      simp only [setKey, if_true, eq_self_iff_true, rkeys, List.map_cons,
        List.mem_cons]
      tauto
    · simp only [setKey, if_neg h, rkeys, List.map_cons, List.mem_cons]
      rw [show (setKey t k v).map Prod.fst = rkeys (setKey t k v) from rfl]
      rw [show t.map Prod.fst = rkeys t from rfl]
      rw [ih]
      tauto

theorem nodup_rkeys_setKey {l : Reg} {k : String} {v : Entry}
    (h : (rkeys l).Nodup) : (rkeys (setKey l k v)).Nodup := by
  induction l with
  | nil => simp [setKey, rkeys]
  | cons p t ih =>
    obtain ⟨k', v'⟩ := p
    simp only [rkeys, List.map_cons, List.nodup_cons] at h
    by_cases hk : k' = k
    · subst hk
      simpa [setKey, rkeys, List.nodup_cons] using h
    · simp only [setKey, if_neg hk, rkeys, List.map_cons, List.nodup_cons]
      refine ⟨fun hmem => ?_, ih h.2⟩
      rcases mem_rkeys_setKey.mp hmem with h1 | h1
      · exact h.1 h1
      · exact hk h1

theorem rlookup_eq_none {l : Reg} {k : String} :
    rlookup l k = none ↔ k ∉ rkeys l := by
  induction l with
  | nil => simp [rlookup, rkeys]
  | cons p t ih =>
    obtain ⟨k', v'⟩ := p
    by_cases h : k' = k
    · simp [rlookup, h, rkeys]
    · simp [rlookup, h, rkeys, ih, Ne.symm h]

theorem mem_of_rlookup {l : Reg} {k : String} {v : Entry}
    (h : rlookup l k = some v) : (k, v) ∈ l := by
  induction l with
  | nil => simp [rlookup] at h
  | cons p t ih =>
    obtain ⟨k', v'⟩ := p
    by_cases hk : k' = k
    · subst hk
      simp only [rlookup, if_true, eq_self_iff_true, Option.some.injEq] at h
      simp [h]
    · simp only [rlookup, if_neg hk] at h
      exact List.mem_cons_of_mem _ (ih h)

theorem rlookup_of_mem_nodup {l : Reg} {k : String} {v : Entry}
    (hnd : (rkeys l).Nodup) (h : (k, v) ∈ l) : rlookup l k = some v := by
  induction l with
  | nil => simp at h
  | cons p t ih =>
    obtain ⟨k', v'⟩ := p
    simp only [rkeys, List.map_cons, List.nodup_cons] at hnd
    rcases List.mem_cons.mp h with h1 | h1
    · obtain ⟨hk, hv⟩ := Prod.mk.injEq .. ▸ h1
      simp [rlookup, hk.symm, hv]
    · have hk : k' ≠ k := by
        intro he
        subst he
        exact hnd.1 (List.mem_map_of_mem Prod.fst h1)
      simp [rlookup, hk, ih hnd.2 h1]

theorem rlookup_perm {l l' : Reg} (hp : l.Perm l')
    (hnd : (rkeys l).Nodup) (k : String) :
    rlookup l k = rlookup l' k := by
  have hnd' : (rkeys l').Nodup := ((hp.map Prod.fst).nodup_iff).mp hnd
  cases h : rlookup l k with
  | none =>
    rw [rlookup_eq_none] at h
    rw [eq_comm, rlookup_eq_none]
    exact fun hm => h (((hp.map Prod.fst).mem_iff).mpr hm)
  | some v =>
    exact (rlookup_of_mem_nodup hnd' (hp.mem_iff.mp (mem_of_rlookup h))).symm

theorem sortByKey_perm (l : Reg) : (sortByKey l).Perm l :=
  List.perm_insertionSort kLe l

theorem rlookup_sortByKey {l : Reg} (hnd : (rkeys l).Nodup) (k : String) :
    rlookup (sortByKey l) k = rlookup l k := by
  have hnd' : (rkeys (sortByKey l)).Nodup :=
    (((sortByKey_perm l).map Prod.fst).nodup_iff).mpr hnd
  exact rlookup_perm (sortByKey_perm l) hnd' k

theorem nodup_rkeys_sortByKey {l : Reg} (hnd : (rkeys l).Nodup) :
    (rkeys (sortByKey l)).Nodup :=
  (((sortByKey_perm l).map Prod.fst).nodup_iff).mpr hnd

theorem sortByKey_sorted (l : Reg) : (sortByKey l).Sorted kLe :=
  List.sorted_insertionSort kLe l

theorem sortByKey_of_sorted {l : Reg} (h : l.Sorted kLe) : sortByKey l = l :=
  h.insertionSort_eq

/-! ## Version-list lemmas -/

theorem mem_newVersions_self (vs : List String) (tag : String) :
    tag ∈ newVersions vs tag := by
  unfold newVersions
  by_cases h : tag ∈ vs <;> simp [h]

theorem mem_newVersions_of_mem {vs : List String} {u : String}
    (h : u ∈ vs) (tag : String) : u ∈ newVersions vs tag := by
  unfold newVersions
  by_cases ht : tag ∈ vs <;> simp [ht, h]

theorem newVersions_of_mem {vs : List String} {tag : String}
    (h : tag ∈ vs) : newVersions vs tag = vs := by
  simp [newVersions, h]

theorem mem_sortDesc {vs : List String} {u : String} :
    u ∈ sortDesc vs ↔ u ∈ vs :=
  List.mem_insertionSort rVer

theorem allParse_sortDesc (vs : List String) :
    allParse (sortDesc vs) = allParse vs := by
  unfold allParse
  cases h : vs.all (fun v => (pv v).isSome) with
  | true =>
    rw [List.all_eq_true] at h ⊢
    exact fun v hv => h v (mem_sortDesc.mp hv)
  | false =>
    rw [List.all_eq_false] at h ⊢
    obtain ⟨v, hv, hp⟩ := h
    exact ⟨v, mem_sortDesc.mpr hv, hp⟩

theorem sortDesc_sortDesc (vs : List String) :
    sortDesc (sortDesc vs) = sortDesc vs :=
  (List.sorted_insertionSort rVer vs).insertionSort_eq

/-! ## Entry-level idempotence -/

theorem updateEntry_idem {e0 e : Entry} {m : Meta} {tag : String}
    (h : updateEntry e0 m tag = .ok e) : updateEntry e m tag = .ok e := by
  cases hm : m.name with
  | none => simp [updateEntry, hm] at h
  | some n =>
    cases hv : e0.versions with
    | none => simp [updateEntry, hm, hv] at h
    | some vs0 =>
      cases hr : e0.repository with
      | none => simp [updateEntry, hm, hv, hr] at h
      | some url =>
        simp only [updateEntry, hm, hv, hr, Except.ok.injEq] at h
        by_cases hs : allParse (newVersions vs0 tag) = true
        · rw [if_pos hs, if_pos hs] at h
          subst h
          have htag : tag ∈ sortDesc (newVersions vs0 tag) :=
            mem_sortDesc.mpr (mem_newVersions_self vs0 tag)
          have hnv : newVersions (sortDesc (newVersions vs0 tag)) tag
              = sortDesc (newVersions vs0 tag) := newVersions_of_mem htag
          have hap : allParse (sortDesc (newVersions vs0 tag)) = true := by
            rw [allParse_sortDesc]; exact hs
          simp only [updateEntry, hm, hnv, hap, if_true, sortDesc_sortDesc]
        · rw [if_neg hs, if_neg hs] at h
          subst h
          have htag : tag ∈ newVersions vs0 tag := mem_newVersions_self vs0 tag
          have hnv : newVersions (newVersions vs0 tag) tag
              = newVersions vs0 tag := newVersions_of_mem htag
          simp only [updateEntry, hm, hnv, if_neg hs, Option.getD_some]

/-- Full characterization of a successful `update_package_entry` body:
what it requires and the exact entry it writes back. -/
theorem updateEntry_eq_ok {e0 : Entry} {m : Meta} {tag : String} {e : Entry} :
    updateEntry e0 m tag = .ok e ↔
      ∃ n vs0 url, m.name = some n ∧ e0.versions = some vs0 ∧
        e0.repository = some url ∧
        e = { name := some n,
              description := some (m.description.getD ""),
              author := some (m.author.getD []),
              repository := some url,
              latest_stable := some (if allParse (newVersions vs0 tag)
                then (sortDesc (newVersions vs0 tag)).headD ""
                else e0.latest_stable.getD ""),
              versions := some (if allParse (newVersions vs0 tag)
                then sortDesc (newVersions vs0 tag)
                else newVersions vs0 tag) } := by
  constructor
  · intro h
    cases hm : m.name with
    | none => simp [updateEntry, hm] at h
    | some n =>
      cases hv : e0.versions with
      | none => simp [updateEntry, hm, hv] at h
      | some vs0 =>
        cases hr : e0.repository with
        | none => simp [updateEntry, hm, hv, hr] at h
        | some url =>
          simp only [updateEntry, hm, hv, hr, Except.ok.injEq] at h
          exact ⟨n, vs0, url, rfl, rfl, rfl, h.symm⟩
  · rintro ⟨n, vs0, url, hm, hv, hr, he⟩
    simp only [updateEntry, hm, hv, hr, he]

/-- Full characterization of a successful `upsert` at the registry
level. -/
theorem upsert_eq_ok {R : Reg} {m : Meta} {repo tag : String} {R' : Reg} :
    upsert R m repo tag = .ok R' ↔
      ∃ efin,
        updateEntry ((rlookup R (pathName repo)).getD (freshEntry repo))
            m tag = .ok efin ∧
        R' = sortByKey (setKey R (pathName repo) efin) := by
  unfold upsert
  cases h : updateEntry ((rlookup R (pathName repo)).getD (freshEntry repo))
      m tag with
  | error e => simp [h]
  | ok efin => simp [h, eq_comm]

/-! ## Claim theorems -/

/-- A concrete valid metadata document, used to instantiate hypotheses
of several claim theorems at concrete inputs. -/
def demoMeta : Meta :=
  { name := some "demo", description := some "x",
    author := some [("name", "A"), ("email", "a@b.com")] }

/-- C2: for every registry (with the unique dict keys Python
guarantees), metadata document, repository identifier and tag,
applying `update_package_entry` twice with the same inputs yields the
same registry as applying it once; when the first application raises,
so does the composition. -/
theorem claim_C2_upsert_idempotent (R : Reg) (m : Meta) (repo tag : String)
    (hnd : (rkeys R).Nodup) :
    (upsert R m repo tag).bind (fun R1 => upsert R1 m repo tag)
      = upsert R m repo tag := by
  cases h : upsert R m repo tag with
  | error e => rfl
  | ok R1 =>
    show upsert R1 m repo tag = Except.ok R1
    obtain ⟨efin, hu, hR1⟩ := upsert_eq_ok.mp h
    subst hR1
    have hnd1 : (rkeys (setKey R (pathName repo) efin)).Nodup :=
      nodup_rkeys_setKey hnd
    have hlook : rlookup (sortByKey (setKey R (pathName repo) efin))
        (pathName repo) = some efin := by
      rw [rlookup_sortByKey hnd1]
      exact rlookup_setKey_self ..
    refine upsert_eq_ok.mpr ⟨efin, ?_, ?_⟩
    · rw [hlook]
      exact updateEntry_idem hu
    · rw [setKey_of_rlookup hlook,
        sortByKey_of_sorted (sortByKey_sorted _)]

/-- Witness for C2 at a concrete input. -/
theorem claim_C2_witness :
    (upsert [] demoMeta "acme/demo" "v1.0.0").bind
        (fun R1 => upsert R1 demoMeta "acme/demo" "v1.0.0")
      = upsert [] demoMeta "acme/demo" "v1.0.0" :=
  claim_C2_upsert_idempotent [] demoMeta "acme/demo" "v1.0.0"
    (by simp [rkeys])

/-- C10: `update_package_entry` completes without raising exactly when
the metadata carries `name` and any pre-existing entry for the derived
package id carries both `versions` and `repository`; a pre-existing
entry lacking either key (or metadata lacking `name`) makes it raise a
`KeyError` rather than repairing the entry, since the default entry is
synthesized only when the package id is absent. -/
theorem claim_C10_success_characterization
    (R : Reg) (m : Meta) (repo tag : String) :
    (∃ R', upsert R m repo tag = .ok R') ↔
      (m.name.isSome = true ∧
        ∀ e, rlookup R (pathName repo) = some e →
          e.versions.isSome = true ∧ e.repository.isSome = true) := by
  constructor
  · rintro ⟨R', hok⟩
    obtain ⟨efin, hu, _⟩ := upsert_eq_ok.mp hok
    obtain ⟨n, vs0, url, hm, hv, hr, _⟩ := updateEntry_eq_ok.mp hu
    refine ⟨by simp [hm], fun e he => ?_⟩
    rw [he, Option.getD_some] at hv hr
    exact ⟨by simp [hv], by simp [hr]⟩
  · rintro ⟨hname, hpre⟩
    obtain ⟨n, hm⟩ := Option.isSome_iff_exists.mp hname
    have hv : ∃ vs0,
        ((rlookup R (pathName repo)).getD (freshEntry repo)).versions
          = some vs0 := by
      cases hl : rlookup R (pathName repo) with
      | none => exact ⟨[], by simp [hl, freshEntry]⟩
      | some e =>
        obtain ⟨h1, _⟩ := hpre e hl
        obtain ⟨vs0, hvs⟩ := Option.isSome_iff_exists.mp h1
        exact ⟨vs0, by simp [hl, hvs]⟩
    have hr : ∃ url,
        ((rlookup R (pathName repo)).getD (freshEntry repo)).repository
          = some url := by
      cases hl : rlookup R (pathName repo) with
      | none => exact ⟨"https://github.com/" ++ repo, by simp [hl, freshEntry]⟩
      | some e =>
        obtain ⟨_, h2⟩ := hpre e hl
        obtain ⟨url, hu⟩ := Option.isSome_iff_exists.mp h2
        exact ⟨url, by simp [hl, hu]⟩
    obtain ⟨vs0, hv⟩ := hv
    obtain ⟨url, hr⟩ := hr
    exact ⟨_, upsert_eq_ok.mpr
      ⟨_, updateEntry_eq_ok.mpr ⟨n, vs0, url, hm, hv, hr, rfl⟩, rfl⟩⟩

/-- C6: after a successful `update_package_entry`, the entry's
`repository` equals the pre-existing entry's `repository` when the
package id was present, and `"https://github.com/" + repo` when it was
absent: the URL is assigned only at entry creation and never changed. -/
theorem claim_C6_repository_stable (R : Reg) (m : Meta) (repo tag : String)
    (R' : Reg) (hnd : (rkeys R).Nodup)
    (hok : upsert R m repo tag = .ok R') :
    (rlookup R' (pathName repo)).map Entry.repository
      = some (((rlookup R (pathName repo)).map Entry.repository).getD
          (some ("https://github.com/" ++ repo))) := by
  obtain ⟨efin, hu, hR'⟩ := upsert_eq_ok.mp hok
  obtain ⟨n, vs0, url, hm, hv, hr, he⟩ := updateEntry_eq_ok.mp hu
  have hlook : rlookup R' (pathName repo) = some efin := by
    subst hR'
    rw [rlookup_sortByKey (nodup_rkeys_setKey hnd)]
    exact rlookup_setKey_self ..
  rw [hlook]
  cases hl : rlookup R (pathName repo) with
  | none =>
    rw [hl, Option.getD_none] at hr
    simp only [freshEntry] at hr
    simp [he, hr.symm]
  | some e =>
    rw [hl, Option.getD_some] at hr
    simp [he, hr.symm]

/-- Witness for C6 at a concrete input: a fresh publish of `demoMeta`
into the empty registry. -/
theorem claim_C6_witness :
    (rlookup [("demo",
        { name := some "demo", description := some "x",
          author := some [("name", "A"), ("email", "a@b.com")],
          repository := some "https://github.com/acme/demo",
          latest_stable := some "v1.0.0",
          versions := some ["v1.0.0"] })] (pathName "acme/demo")).map
        Entry.repository
      = some (((rlookup ([] : Reg) (pathName "acme/demo")).map
          Entry.repository).getD
            (some ("https://github.com/" ++ "acme/demo"))) :=
  claim_C6_repository_stable [] demoMeta "acme/demo" "v1.0.0" _
    (by simp [rkeys]) (by rfl)

/-- The entry stored for `pid` after an `upsert` outcome (`none` when
the call raised or the id is absent). -/
def entryAfter (u : Except UErr Reg) (pid : String) : Option Entry :=
  match u with
  | .ok R' => rlookup R' pid
  | .error _ => none

/-- The version list stored for `pid` after an `upsert` outcome. -/
def versionsAfter (u : Except UErr Reg) (pid : String) : List String :=
  ((entryAfter u pid).bind Entry.versions).getD []

/-- The `latest_stable` stored for `pid` after an `upsert` outcome. -/
def latestAfter (u : Except UErr Reg) (pid : String) : Option String :=
  (entryAfter u pid).bind Entry.latest_stable

/-- Whether an `upsert` outcome is a success. -/
def isOkE (u : Except UErr Reg) : Bool :=
  match u with
  | .ok _ => true
  | .error _ => false

theorem isOkE_eq_true {u : Except UErr Reg} :
    isOkE u = true ↔ ∃ R', u = .ok R' := by
  cases u <;> simp [isOkE]

/-- C4 (amended): after any successful `update_package_entry`, when
every stored tag parses as a semantic version, `latest_stable` equals
`versions[0]` of the stored descending-sorted sequence; when any stored
tag fails to parse, the previous `latest_stable` is preserved (the
empty string standing for a previously unset value). -/
theorem claim_C4_latest_stable (R : Reg) (m : Meta) (repo tag : String)
    (hnd : (rkeys R).Nodup)
    (hok : isOkE (upsert R m repo tag) = true) :
    (allParse (versionsAfter (upsert R m repo tag) (pathName repo)) = true →
      latestAfter (upsert R m repo tag) (pathName repo)
        = (versionsAfter (upsert R m repo tag) (pathName repo)).head?) ∧
    (allParse (versionsAfter (upsert R m repo tag) (pathName repo)) = false →
      latestAfter (upsert R m repo tag) (pathName repo)
        = some ((((rlookup R (pathName repo)).getD
            (freshEntry repo)).latest_stable).getD "")) := by
  obtain ⟨R', hR'⟩ := isOkE_eq_true.mp hok
  obtain ⟨efin, hu, hReq⟩ := upsert_eq_ok.mp hR'
  obtain ⟨n, vs0, url, hm, hv, hr, he⟩ := updateEntry_eq_ok.mp hu
  have hlook : rlookup R' (pathName repo) = some efin := by
    rw [hReq, rlookup_sortByKey (nodup_rkeys_setKey hnd)]
    exact rlookup_setKey_self ..
  have hea : entryAfter (upsert R m repo tag) (pathName repo) = some efin := by
    rw [hR']
    exact hlook
  by_cases hs : allParse (newVersions vs0 tag) = true
  · have hvs : versionsAfter (upsert R m repo tag) (pathName repo)
        = sortDesc (newVersions vs0 tag) := by
      simp [versionsAfter, hea, he, hs]
    have hne : sortDesc (newVersions vs0 tag) ≠ [] := by
      intro hnil
      have := mem_sortDesc.mpr (mem_newVersions_self vs0 tag)
      rw [hnil] at this
      exact absurd this (List.not_mem_nil tag)
    constructor
    · intro _
      rw [hvs]
      cases hcase : sortDesc (newVersions vs0 tag) with
      | nil => exact absurd hcase hne
      | cons a t =>
        simp [latestAfter, hea, he, hs, hcase]
    · intro hfalse
      rw [hvs, allParse_sortDesc] at hfalse
      rw [hs] at hfalse
      cases hfalse
  · have hs' : allParse (newVersions vs0 tag) = false :=
      Bool.eq_false_iff.mpr hs
    have hvs : versionsAfter (upsert R m repo tag) (pathName repo)
        = newVersions vs0 tag := by
      simp [versionsAfter, hea, he, hs']
    constructor
    · intro htrue
      rw [hvs] at htrue
      rw [htrue] at hs'
      cases hs'
    · intro _
      simp [latestAfter, hea, he, hs']

/-- C5: when the existing entry's version list contains a tag that
fails semantic-version parsing, `update_package_entry` still succeeds,
leaves `latest_stable` at its prior value (the empty string standing
for a previously unset value), still adds the new tag, and keeps the
unparseable tag listed in `versions`. -/
theorem claim_C5_unparseable_recoverable (R : Reg) (m : Meta)
    (repo tag : String) (e : Entry) (u : String) (vs0 : List String)
    (url n : String)
    (hnd : (rkeys R).Nodup)
    (hlook : rlookup R (pathName repo) = some e)
    (hv : e.versions = some vs0)
    (hu : u ∈ vs0) (hbad : pv u = none)
    (hr : e.repository = some url) (hm : m.name = some n) :
    isOkE (upsert R m repo tag) = true ∧
    latestAfter (upsert R m repo tag) (pathName repo)
      = some (e.latest_stable.getD "") ∧
    tag ∈ versionsAfter (upsert R m repo tag) (pathName repo) ∧
    u ∈ versionsAfter (upsert R m repo tag) (pathName repo) := by
  have he0 : (rlookup R (pathName repo)).getD (freshEntry repo) = e := by
    simp [hlook]
  have hup : updateEntry e m tag = .ok
      { name := some n,
        description := some (m.description.getD ""),
        author := some (m.author.getD []),
        repository := some url,
        latest_stable := some (if allParse (newVersions vs0 tag)
          then (sortDesc (newVersions vs0 tag)).headD ""
          else e.latest_stable.getD ""),
        versions := some (if allParse (newVersions vs0 tag)
          then sortDesc (newVersions vs0 tag)
          else newVersions vs0 tag) } :=
    updateEntry_eq_ok.mpr ⟨n, vs0, url, hm, hv, hr, rfl⟩
  have hs : allParse (newVersions vs0 tag) = false := by
    rw [allParse, List.all_eq_false]
    exact ⟨u, mem_newVersions_of_mem hu tag, by simp [hbad]⟩
  rw [hs] at hup
  simp only [if_false, Bool.false_eq_true] at hup
  have hok : upsert R m repo tag = Except.ok (sortByKey (setKey R
      (pathName repo)
      { name := some n,
        description := some (m.description.getD ""),
        author := some (m.author.getD []),
        repository := some url,
        latest_stable := some (e.latest_stable.getD ""),
        versions := some (newVersions vs0 tag) })) :=
    upsert_eq_ok.mpr ⟨_, by rw [he0]; exact hup, rfl⟩
  have hlook' : entryAfter (upsert R m repo tag) (pathName repo)
      = some
        { name := some n,
          description := some (m.description.getD ""),
          author := some (m.author.getD []),
          repository := some url,
          latest_stable := some (e.latest_stable.getD ""),
          versions := some (newVersions vs0 tag) } := by
    rw [hok]
    show rlookup (sortByKey _) (pathName repo) = _
    rw [rlookup_sortByKey (nodup_rkeys_setKey hnd)]
    exact rlookup_setKey_self ..
  refine ⟨by rw [hok]; rfl, ?_, ?_, ?_⟩
  · simp [latestAfter, hlook']
  · simp only [versionsAfter, hlook', Option.bind_some, Option.getD_some]
    exact mem_newVersions_self vs0 tag
  · simp only [versionsAfter, hlook', Option.bind_some, Option.getD_some]
    exact mem_newVersions_of_mem hu tag

/-- C3 (amended): publishing two distinct parseable tags into a
registry that has no entry yet for the derived package id lists both
tags in `versions` and sets `latest_stable` to the semantically greater
tag (in either publish order). -/
theorem claim_C3_two_tags (R : Reg) (m : Meta) (repo t1 t2 n : String)
    (v1 v2 : SemVer)
    (hnd : (rkeys R).Nodup)
    (habs : rlookup R (pathName repo) = none)
    (hm : m.name = some n)
    (h1 : pv t1 = some v1) (h2 : pv t2 = some v2)
    (hne : t1 ≠ t2) :
    t1 ∈ versionsAfter ((upsert R m repo t1).bind
        (fun r => upsert r m repo t2)) (pathName repo) ∧
    t2 ∈ versionsAfter ((upsert R m repo t1).bind
        (fun r => upsert r m repo t2)) (pathName repo) ∧
    (toKey v1 < toKey v2 →
      latestAfter ((upsert R m repo t1).bind
        (fun r => upsert r m repo t2)) (pathName repo) = some t2) ∧
    (toKey v2 < toKey v1 →
      latestAfter ((upsert R m repo t1).bind
        (fun r => upsert r m repo t2)) (pathName repo) = some t1) := by
  have h01 : newVersions [] t1 = [t1] := by simp [newVersions]
  have h02 : allParse [t1] = true := by simp [allParse, h1]
  have h03 : sortDesc [t1] = [t1] := by
    simp [sortDesc, List.insertionSort, List.orderedInsert]
  have hu1 : updateEntry (freshEntry repo) m t1 = Except.ok
      { name := some n,
        description := some (m.description.getD ""),
        author := some (m.author.getD []),
        repository := some ("https://github.com/" ++ repo),
        latest_stable := some t1,
        versions := some [t1] } := by
    refine updateEntry_eq_ok.mpr ⟨n, [], _, hm, rfl, rfl, ?_⟩
    rw [h01, h02, h03]
    simp
  have hU1 : upsert R m repo t1 = Except.ok (sortByKey (setKey R
      (pathName repo)
      { name := some n,
        description := some (m.description.getD ""),
        author := some (m.author.getD []),
        repository := some ("https://github.com/" ++ repo),
        latest_stable := some t1,
        versions := some [t1] })) :=
    upsert_eq_ok.mpr ⟨_, by
      simp only [habs, Option.getD_none]
      exact hu1, rfl⟩
  have hnd1 : (rkeys (setKey R (pathName repo)
      { name := some n,
        description := some (m.description.getD ""),
        author := some (m.author.getD []),
        repository := some ("https://github.com/" ++ repo),
        latest_stable := some t1,
        versions := some [t1] })).Nodup := nodup_rkeys_setKey hnd
  have hlook1 : rlookup (sortByKey (setKey R (pathName repo)
      { name := some n,
        description := some (m.description.getD ""),
        author := some (m.author.getD []),
        repository := some ("https://github.com/" ++ repo),
        latest_stable := some t1,
        versions := some [t1] })) (pathName repo) = some
      { name := some n,
        description := some (m.description.getD ""),
        author := some (m.author.getD []),
        repository := some ("https://github.com/" ++ repo),
        latest_stable := some t1,
        versions := some [t1] } := by
    rw [rlookup_sortByKey hnd1]
    exact rlookup_setKey_self ..
  have h11 : newVersions [t1] t2 = [t1, t2] := by
    simp [newVersions, hne.symm]
  have h12 : allParse [t1, t2] = true := by simp [allParse, h1, h2]
  have hv1 : vkey t1 = toKey v1 := by simp [vkey, h1]
  have hv2 : vkey t2 = toKey v2 := by simp [vkey, h2]
  have hu2 : updateEntry
      { name := some n,
        description := some (m.description.getD ""),
        author := some (m.author.getD []),
        repository := some ("https://github.com/" ++ repo),
        latest_stable := some t1,
        versions := some [t1] } m t2 = Except.ok
      { name := some n,
        description := some (m.description.getD ""),
        author := some (m.author.getD []),
        repository := some ("https://github.com/" ++ repo),
        latest_stable := some ((sortDesc [t1, t2]).headD ""),
        versions := some (sortDesc [t1, t2]) } := by
    refine updateEntry_eq_ok.mpr ⟨n, [t1], _, hm, rfl, rfl, ?_⟩
    rw [h11, h12]
    simp
  have hbind : (upsert R m repo t1).bind (fun r => upsert r m repo t2)
      = upsert (sortByKey (setKey R (pathName repo)
        { name := some n,
          description := some (m.description.getD ""),
          author := some (m.author.getD []),
          repository := some ("https://github.com/" ++ repo),
          latest_stable := some t1,
          versions := some [t1] })) m repo t2 := by
    rw [hU1]
    rfl
  have hU2 : upsert (sortByKey (setKey R (pathName repo)
      { name := some n,
        description := some (m.description.getD ""),
        author := some (m.author.getD []),
        repository := some ("https://github.com/" ++ repo),
        latest_stable := some t1,
        versions := some [t1] })) m repo t2 = Except.ok (sortByKey (setKey
      (sortByKey (setKey R (pathName repo)
        { name := some n,
          description := some (m.description.getD ""),
          author := some (m.author.getD []),
          repository := some ("https://github.com/" ++ repo),
          latest_stable := some t1,
          versions := some [t1] })) (pathName repo)
      { name := some n,
        description := some (m.description.getD ""),
        author := some (m.author.getD []),
        repository := some ("https://github.com/" ++ repo),
        latest_stable := some ((sortDesc [t1, t2]).headD ""),
        versions := some (sortDesc [t1, t2]) })) :=
    upsert_eq_ok.mpr ⟨_, by
      simp only [hlook1, Option.getD_some]
      exact hu2, rfl⟩
  have hEA : entryAfter ((upsert R m repo t1).bind
      (fun r => upsert r m repo t2)) (pathName repo) = some
      { name := some n,
        description := some (m.description.getD ""),
        author := some (m.author.getD []),
        repository := some ("https://github.com/" ++ repo),
        latest_stable := some ((sortDesc [t1, t2]).headD ""),
        versions := some (sortDesc [t1, t2]) } := by
    rw [hbind, hU2]
    show rlookup _ (pathName repo) = _
    rw [rlookup_sortByKey (nodup_rkeys_setKey (nodup_rkeys_sortByKey hnd1))]
    exact rlookup_setKey_self ..
  refine ⟨?_, ?_, ?_, ?_⟩
  · simp only [versionsAfter, hEA, Option.bind_some, Option.getD_some]
    exact mem_sortDesc.mpr (by simp)
  · simp only [versionsAfter, hEA, Option.bind_some, Option.getD_some]
    exact mem_sortDesc.mpr (by simp)
  · intro hlt
    have hnc : ¬ rVer t1 t2 := by
      rw [rVer, hv1, hv2]
      exact not_le.mpr hlt
    have hsd : sortDesc [t1, t2] = [t2, t1] := by
      simp [sortDesc, List.insertionSort, List.orderedInsert, if_neg hnc]
    simp [latestAfter, hEA, hsd]
  · intro hgt
    have hc : rVer t1 t2 := by
      rw [rVer, hv1, hv2]
      exact le_of_lt hgt
    have hsd : sortDesc [t1, t2] = [t1, t2] := by
      simp [sortDesc, List.insertionSort, List.orderedInsert, if_pos hc]
    simp [latestAfter, hEA, hsd]

/-- Witness for C3 at concrete inputs. -/
theorem claim_C3_witness :
    "v1.0.0" ∈ versionsAfter ((upsert [] demoMeta "acme/demo"
        "v1.0.0").bind (fun r => upsert r demoMeta "acme/demo" "v2.0.0"))
      (pathName "acme/demo") ∧
    "v2.0.0" ∈ versionsAfter ((upsert [] demoMeta "acme/demo"
        "v1.0.0").bind (fun r => upsert r demoMeta "acme/demo" "v2.0.0"))
      (pathName "acme/demo") ∧
    (toKey ⟨1, 0, 0, []⟩ < toKey ⟨2, 0, 0, []⟩ →
      latestAfter ((upsert [] demoMeta "acme/demo" "v1.0.0").bind
        (fun r => upsert r demoMeta "acme/demo" "v2.0.0"))
        (pathName "acme/demo") = some "v2.0.0") ∧
    (toKey ⟨2, 0, 0, []⟩ < toKey ⟨1, 0, 0, []⟩ →
      latestAfter ((upsert [] demoMeta "acme/demo" "v1.0.0").bind
        (fun r => upsert r demoMeta "acme/demo" "v2.0.0"))
        (pathName "acme/demo") = some "v1.0.0") :=
  claim_C3_two_tags [] demoMeta "acme/demo" "v1.0.0" "v2.0.0" "demo"
    ⟨1, 0, 0, []⟩ ⟨2, 0, 0, []⟩ (by simp [rkeys]) rfl rfl rfl rfl
    (by decide)

/-- A pre-existing entry whose greatest version exceeds both tags of
the C3 claim's scenario. -/
def bigEntry : Entry :=
  { name := some "demo", description := some "x", author := some [],
    repository := some "u", latest_stable := some "v9.0.0",
    versions := some ["v9.0.0"] }

/-- Counterexample to C3 as stated: over an arbitrary registry `R`,
publishing valid distinct tags `v1.0.0` then `v2.0.0` need not make
`latest_stable` the greater of the two — a pre-existing `v9.0.0`
wins. -/
theorem claim_C3_counterexample :
    pv "v1.0.0" = some ⟨1, 0, 0, []⟩ ∧
    pv "v2.0.0" = some ⟨2, 0, 0, []⟩ ∧
    pv "v9.0.0" = some ⟨9, 0, 0, []⟩ ∧
    toKey (⟨1, 0, 0, []⟩ : SemVer) < toKey (⟨2, 0, 0, []⟩ : SemVer) ∧
    latestAfter ((upsert [("demo", bigEntry)] demoMeta "acme/demo"
        "v1.0.0").bind (fun r => upsert r demoMeta "acme/demo" "v2.0.0"))
      (pathName "acme/demo") = some "v9.0.0" ∧
    latestAfter ((upsert [("demo", bigEntry)] demoMeta "acme/demo"
        "v1.0.0").bind (fun r => upsert r demoMeta "acme/demo" "v2.0.0"))
      (pathName "acme/demo") ≠ some "v2.0.0" := by
  refine ⟨rfl, rfl, rfl, by decide, rfl, by decide⟩

/-- Witness for C4 at a concrete input. -/
theorem claim_C4_witness :
    (allParse (versionsAfter (upsert [] demoMeta "acme/demo" "v1.0.0")
        (pathName "acme/demo")) = true →
      latestAfter (upsert [] demoMeta "acme/demo" "v1.0.0")
          (pathName "acme/demo")
        = (versionsAfter (upsert [] demoMeta "acme/demo" "v1.0.0")
            (pathName "acme/demo")).head?) ∧
    (allParse (versionsAfter (upsert [] demoMeta "acme/demo" "v1.0.0")
        (pathName "acme/demo")) = false →
      latestAfter (upsert [] demoMeta "acme/demo" "v1.0.0")
          (pathName "acme/demo")
        = some ((((rlookup [] (pathName "acme/demo")).getD
            (freshEntry "acme/demo")).latest_stable).getD "")) :=
  claim_C4_latest_stable [] demoMeta "acme/demo" "v1.0.0"
    (by simp [rkeys]) (by rfl)

/-- A pre-existing entry that lists an unparseable tag next to a
parseable one. -/
def badEntry : Entry :=
  { name := some "demo", description := some "x", author := some [],
    repository := some "u", latest_stable := some "v2.0.0",
    versions := some ["bogus", "v2.0.0"] }

/-- Counterexample to C4 as stated: after a successful update of an
entry listing `"bogus"` and `"v2.0.0"`, some tags do parse, yet
`latest_stable` is the preserved `"v2.0.0"` while `versions[0]` is
`"bogus"` — the exception is triggered whenever any tag fails to
parse, not only when no tag parses. -/
theorem claim_C4_counterexample :
    isOkE (upsert [("demo", badEntry)] demoMeta "acme/demo" "v3.0.0")
      = true ∧
    (pv "v2.0.0").isSome = true ∧ (pv "v3.0.0").isSome = true ∧
    versionsAfter (upsert [("demo", badEntry)] demoMeta "acme/demo"
        "v3.0.0") (pathName "acme/demo")
      = ["bogus", "v2.0.0", "v3.0.0"] ∧
    latestAfter (upsert [("demo", badEntry)] demoMeta "acme/demo"
        "v3.0.0") (pathName "acme/demo") = some "v2.0.0" ∧
    latestAfter (upsert [("demo", badEntry)] demoMeta "acme/demo"
        "v3.0.0") (pathName "acme/demo")
      ≠ (versionsAfter (upsert [("demo", badEntry)] demoMeta "acme/demo"
          "v3.0.0") (pathName "acme/demo")).head? := by
  refine ⟨rfl, rfl, rfl, rfl, rfl, by decide⟩

/-- Witness for C5 at a concrete input. -/
theorem claim_C5_witness :
    isOkE (upsert [("demo", badEntry)] demoMeta "acme/demo" "v3.0.0")
      = true ∧
    latestAfter (upsert [("demo", badEntry)] demoMeta "acme/demo"
        "v3.0.0") (pathName "acme/demo")
      = some (badEntry.latest_stable.getD "") ∧
    "v3.0.0" ∈ versionsAfter (upsert [("demo", badEntry)] demoMeta
        "acme/demo" "v3.0.0") (pathName "acme/demo") ∧
    "bogus" ∈ versionsAfter (upsert [("demo", badEntry)] demoMeta
        "acme/demo" "v3.0.0") (pathName "acme/demo") :=
  claim_C5_unparseable_recoverable [("demo", badEntry)] demoMeta
    "acme/demo" "v3.0.0" badEntry "bogus" ["bogus", "v2.0.0"] "u" "demo"
    (by simp [rkeys]) rfl rfl (by simp) rfl rfl rfl

theorem isListV_eq_true {v : Option PVal} :
    isListV v = true ↔ ∃ l, v = some (.list l) := by
  cases v with
  | none => simp [isListV]
  | some x => cases x <;> simp [isListV]

theorem isStrV_eq_true {v : Option PVal} :
    isStrV v = true ↔ ∃ s, v = some (.str s) := by
  cases v with
  | none => simp [isStrV]
  | some x => cases x <;> simp [isStrV]

/-- C1 (amended): `_check_provides` performs no asset-path checks at
all — it succeeds exactly when `provides` is a non-empty dict carrying
`code` and/or `assets` with `assets` (if present) a list and `code`
(if present) a string; the elements of the `assets` list, including
any parent-directory-traversal or non-existent `path`, are never
examined, and no `UnsafePath` or `AssetNotFound` rejection exists. -/
theorem claim_C1_no_path_checks (d : List (String × PVal)) :
    checkProvides d = .ok () ↔
      (d ≠ [] ∧ (hasKey d "code" = true ∨ hasKey d "assets" = true) ∧
        (hasKey d "assets" = true →
          ∃ l, getKey d "assets" = some (.list l)) ∧
        (hasKey d "code" = true →
          ∃ s, getKey d "code" = some (.str s))) := by
  unfold checkProvides
  split_ifs with h1 h2 h3
  · simp only [Bool.or_eq_true, List.isEmpty_iff, Bool.not_eq_true',
      Bool.or_eq_false_iff] at h1
    constructor
    · intro h
      cases h
    · rintro ⟨hne, hkey, -, -⟩
      rcases h1 with h1 | h1
      · exact absurd h1 hne
      · rcases hkey with hk | hk <;>
          simp only [h1.1, h1.2] at hk <;> cases hk
  · simp only [Bool.and_eq_true, Bool.not_eq_true'] at h2
    constructor
    · intro h
      cases h
    · rintro ⟨-, -, hlist, -⟩
      obtain ⟨l, hl⟩ := hlist h2.1
      rw [show isListV (getKey d "assets") = true from
        isListV_eq_true.mpr ⟨l, hl⟩] at h2
      cases h2.2
  · simp only [Bool.and_eq_true, Bool.not_eq_true'] at h3
    constructor
    · intro h
      cases h
    · rintro ⟨-, -, -, hstr⟩
      obtain ⟨s, hs⟩ := hstr h3.1
      rw [show isStrV (getKey d "code") = true from
        isStrV_eq_true.mpr ⟨s, hs⟩] at h3
      cases h3.2
  · simp only [Bool.or_eq_true, Bool.not_eq_true', Bool.or_eq_false_iff,
      not_or] at h1
    simp only [Bool.and_eq_true, Bool.not_eq_true', not_and] at h2 h3
    constructor
    · intro _
      refine ⟨?_, ?_, ?_, ?_⟩
      · intro hnil
        exact absurd (by simp [hnil]) h1.1
      · cases hc : hasKey d "code" with
        | true => exact Or.inl rfl
        | false =>
          cases ha : hasKey d "assets" with
          | true => exact Or.inr rfl
          | false => exact absurd ⟨hc, ha⟩ h1.2
      · intro hk
        cases hv : isListV (getKey d "assets") with
        | true => exact isListV_eq_true.mp hv
        | false => exact absurd hv (h2 hk)
      · intro hk
        cases hv : isStrV (getKey d "code") with
        | true => exact isStrV_eq_true.mp hv
        | false => exact absurd hv (h3 hk)
    · intro _
      rfl

/-- Counterexample to C1 as stated: a full content validation of a
document whose only asset path is `"../secrets.yaml"` (which also does
not exist on disk — no filesystem access happens at all) succeeds
instead of failing with `UnsafePath`/`AssetNotFound`. -/
theorem claim_C1_counterexample :
    validateContent
      { name := "demo", description := "x", authorName := "A",
        authorEmail := "a@b.com",
        provides := [("assets",
          PVal.list [⟨[("path", "../secrets.yaml")]⟩])] }
      (some "v1.0.0") = .ok () := by
  rfl

/-- Counterexample to C7 as stated: `"vv1.2.3"` has more than one
leading `v`, so under the claim it must be rejected, but
`_check_tag` strips every leading `v` (Python `lstrip`) and accepts
it. -/
theorem claim_C7_counterexample :
    checkTag (some "vv1.2.3") = .ok () := by
  rfl

/-- C7 (amended): the tag check accepts an absent or empty tag
trivially, and otherwise succeeds exactly when the tag parses as a
semantic version after stripping all (not just one) leading `v`
characters; in particular prepending a further `v` to a non-empty tag
never changes the outcome. -/
theorem claim_C7_tag_check :
    (∀ s : String, s ≠ "" →
      (checkTag (some s) = .ok () ↔ (pv s).isSome = true)) ∧
    (∀ s : String, s ≠ "" →
      checkTag (some ("v" ++ s)) = checkTag (some s)) := by
  have hdata : ∀ s : String, s ≠ "" → s.data ≠ [] := by
    intro s hs hnil
    apply hs
    cases s
    simp only at hnil
    rw [hnil]
  constructor
  · intro s hs
    have hne : s.data.isEmpty = false := by
      simp [List.isEmpty_iff, hdata s hs]
    simp only [checkTag, hne, Bool.false_eq_true, if_false]
    cases hp : pv s <;> simp [hp]
  · intro s hs
    have hcs : s.data ≠ [] := hdata s hs
    obtain ⟨cs⟩ := s
    show checkTag (some (String.mk ('v' :: cs)))
      = checkTag (some (String.mk cs))
    have h2 : pv (String.mk ('v' :: cs)) = pv (String.mk cs) := by
      unfold pv
      congr 1
    have e2 : cs.isEmpty = false := by
      simpa [List.isEmpty_iff] using hcs
    simp [checkTag, h2, e2]

/-- Witness for C7 at concrete inputs. -/
theorem claim_C7_witness :
    (checkTag (some "v1.2.3") = .ok ()
      ↔ (pv "v1.2.3").isSome = true) ∧
    checkTag (some ("v" ++ "1.2.3")) = checkTag (some "1.2.3") :=
  ⟨claim_C7_tag_check.1 "v1.2.3" (by decide),
   claim_C7_tag_check.2 "1.2.3" (by decide)⟩

/-! ## Email-regex refinement -/

theorem ne_nil_of_isEmpty_false {α : Type} {l : List α}
    (h : l.isEmpty = false) : l ≠ [] := by
  cases l <;> simp_all

theorem isEmpty_false_of_ne_nil {α : Type} {l : List α}
    (h : l ≠ []) : l.isEmpty = false := by
  cases l <;> simp_all

theorem splitAtFirst_eq_some {c : Char} {cs a b : List Char}
    (h : splitAtFirst c cs = some (a, b)) :
    cs = a ++ c :: b ∧ c ∉ a := by
  induction cs generalizing a b with
  | nil => simp [splitAtFirst] at h
  | cons x xs ih =>
    by_cases hx : x = c
    · subst hx
      simp [splitAtFirst] at h
      obtain ⟨ha, hb⟩ := h
      subst ha
      subst hb
      simp
    · simp only [splitAtFirst, if_neg hx] at h
      cases hs : splitAtFirst c xs with
      | none => rw [hs] at h; cases h
      | some p =>
        obtain ⟨a', b'⟩ := p
        rw [hs] at h
        simp only [Option.map_some', Option.some.injEq,
          Prod.mk.injEq] at h
        obtain ⟨ha, hb⟩ := h
        obtain ⟨h1, h2⟩ := ih hs
        subst hb
        rw [← ha]
        constructor
        · rw [h1]
          simp
        · intro hm
          rcases List.mem_cons.mp hm with hm | hm
          · exact hx hm.symm
          · exact h2 hm

theorem splitAtFirst_append {c : Char} {a : List Char} (hna : c ∉ a)
    (b : List Char) : splitAtFirst c (a ++ c :: b) = some (a, b) := by
  induction a with
  | nil => simp [splitAtFirst]
  | cons x xs ih =>
    have hx : x ≠ c := by
      rintro rfl
      exact hna (List.mem_cons_self ..)
    have hxs : c ∉ xs := fun h => hna (List.mem_cons_of_mem _ h)
    simp [splitAtFirst, hx, ih hxs]

theorem emailDom_eq_some {dom d1 d2 : List Char}
    (h : splitAtFirst '.' dom = some (d1, d2)) :
    emailDom dom = ((!d1.isEmpty && d1.all isDomHeadChar) &&
      (!d2.isEmpty && d2.all isDomTailChar)) := by
  unfold emailDom
  rw [h]

theorem emailDom_eq_none {dom : List Char}
    (h : splitAtFirst '.' dom = none) : emailDom dom = false := by
  unfold emailDom
  rw [h]

theorem emailCore_eq_some {cs l dom : List Char}
    (h : splitAtFirst '@' cs = some (l, dom)) :
    emailCore cs = ((!l.isEmpty && l.all isLocalChar) && emailDom dom) := by
  unfold emailCore
  rw [h]

theorem emailCore_eq_none {cs : List Char}
    (h : splitAtFirst '@' cs = none) : emailCore cs = false := by
  unfold emailCore
  rw [h]

/-- Declarative reading of the email-regex core
`[a-zA-Z0-9_.+-]+@[a-zA-Z0-9-]+\.[a-zA-Z0-9-.]+` over a whole
character list. -/
def emailSpecCore (cs : List Char) : Prop :=
  ∃ l d1 d2 : List Char,
    cs = l ++ '@' :: (d1 ++ '.' :: d2) ∧
    l ≠ [] ∧ (∀ ch ∈ l, isLocalChar ch = true) ∧
    d1 ≠ [] ∧ (∀ ch ∈ d1, isDomHeadChar ch = true) ∧
    d2 ≠ [] ∧ (∀ ch ∈ d2, isDomTailChar ch = true)

/-- The executable matcher agrees with the declarative reading of the
regex core. -/
theorem emailCore_iff (cs : List Char) :
    emailCore cs = true ↔ emailSpecCore cs := by
  constructor
  · intro h
    cases h1 : splitAtFirst '@' cs with
    | none => rw [emailCore_eq_none h1] at h; cases h
    | some p =>
      obtain ⟨l, dom⟩ := p
      rw [emailCore_eq_some h1] at h
      cases h2 : splitAtFirst '.' dom with
      | none => rw [emailDom_eq_none h2] at h; simp at h
      | some q =>
        obtain ⟨d1, d2⟩ := q
        rw [emailDom_eq_some h2] at h
        simp only [Bool.and_eq_true, Bool.not_eq_true',
          List.all_eq_true] at h
        obtain ⟨⟨hl0, hl1⟩, ⟨hd10, hd11⟩, hd20, hd21⟩ := h
        obtain ⟨hcs, _⟩ := splitAtFirst_eq_some h1
        obtain ⟨hdom, _⟩ := splitAtFirst_eq_some h2
        exact ⟨l, d1, d2, by rw [hcs, hdom],
          ne_nil_of_isEmpty_false hl0, hl1,
          ne_nil_of_isEmpty_false hd10, hd11,
          ne_nil_of_isEmpty_false hd20, hd21⟩
  · rintro ⟨l, d1, d2, hcs, hl0, hl1, hd10, hd11, hd20, hd21⟩
    have hna : '@' ∉ l := fun hm => absurd (hl1 '@' hm) (by decide)
    have h1 : splitAtFirst '@' cs = some (l, d1 ++ '.' :: d2) := by
      rw [hcs]
      exact splitAtFirst_append hna _
    have hnd : '.' ∉ d1 := fun hm => absurd (hd11 '.' hm) (by decide)
    have h2 : splitAtFirst '.' (d1 ++ '.' :: d2) = some (d1, d2) :=
      splitAtFirst_append hnd _
    rw [emailCore_eq_some h1, emailDom_eq_some h2]
    simp only [Bool.and_eq_true, Bool.not_eq_true', List.all_eq_true]
    exact ⟨⟨isEmpty_false_of_ne_nil hl0, hl1⟩,
      ⟨isEmpty_false_of_ne_nil hd10, hd11⟩,
      isEmpty_false_of_ne_nil hd20, hd21⟩

/-- C8 (amended): for metadata reaching the author-content check past
the non-empty and placeholder gates, validation fails with
`InvalidEmail` exactly when the email — after the single trailing
newline that the `$`-anchored `re.match` tolerates — does not
decompose as `local@head.tail` with `local` over `[a-zA-Z0-9_.+-]`,
`head` over `[a-zA-Z0-9-]` and `tail` over `[a-zA-Z0-9-.]`, each
non-empty. -/
theorem claim_C8_invalid_email (name email : String)
    (hn : name.data.all isPySpace = false)
    (he : email.data.all isPySpace = false)
    (hp : containsSub "your-github-username" name = false) :
    (checkAuthorContent name email = .error .invalidEmail
      ↔ ¬ emailSpecCore (dropTrailingNl email.data)) := by
  have hkey : emailMatch email = emailCore (dropTrailingNl email.data) :=
    rfl
  cases hm : emailMatch email with
  | true =>
    have hspec : emailSpecCore (dropTrailingNl email.data) :=
      (emailCore_iff _).mp (by rw [← hkey]; exact hm)
    simp [checkAuthorContent, checkNonEmptyStr, Bind.bind, Except.bind,
      hn, he, hp, hm, hspec]
  | false =>
    have hnspec : ¬ emailSpecCore (dropTrailingNl email.data) := by
      intro hs
      have hc := (emailCore_iff _).mpr hs
      rw [← hkey, hm] at hc
      cases hc
    simp [checkAuthorContent, checkNonEmptyStr, Bind.bind, Except.bind,
      hn, he, hp, hm, hnspec]

/-- Counterexample to C8 as stated: `"a@b.cd\n"` carries trailing
whitespace, so under the claim it must fail with `InvalidEmail`, but
the `$`-anchored `re.match` accepts it and the author check
succeeds. -/
theorem claim_C8_counterexample :
    checkAuthorContent "A" (String.mk ['a', '@', 'b', '.', 'c', 'd',
      Char.ofNat 10]) = .ok () := by
  rfl

/-- Witness for C8 at a concrete input. -/
theorem claim_C8_witness :
    checkAuthorContent "A" "a@b.com" = .error .invalidEmail
      ↔ ¬ emailSpecCore (dropTrailingNl "a@b.com".data) :=
  claim_C8_invalid_email "A" "a@b.com" (by decide) (by decide)
    (by decide)

/-- C9 (modelled from the spec, whose validator signature carries an
optional expected name absent from the script under `src/`): with an
expected-name argument supplied, the check passes exactly when it
equals the metadata's `name` by case-sensitive string equality, and
fails with `NameMismatch` exactly otherwise. -/
theorem claim_C9_expected_name (expected name : String) :
    (checkExpectedName (some expected) name = .ok ()
      ↔ expected = name) ∧
    (checkExpectedName (some expected) name = .error "NameMismatch"
      ↔ expected ≠ name) := by
  by_cases h : expected = name <;> simp [checkExpectedName, h]
